import Mathlib

/-!
# Verification of the competitor website monitor (`monitor.py`)

This file gives a shallow embedding of the discovery-and-diff engine of
`gha-competitor-monitor/monitor.py` and proves the specification claims
about it.

Network effects are abstracted into a deterministic `World`:
* `World.fp u` models the outcome of `content_fingerprint(u, ...)` —
  `some (hash, len)` on success, `none` when the fetch raises after all
  retries;
* `World.discovered base` models the set of URLs gathered for a site by
  `parse_sitemap_collect` / `parse_rss_items` (steps 1 and 2 of `main`);
  the set is represented as a duplicate-free list obtained by `dedup`.

Python `dict`s are modelled as insertion-ordered association lists
(`alGet` / `alSet` mirror `d.get(k)` / `d[k] = v`), Python `int`s as `Int`,
and Python's `list(xs)[:take]` slicing (including its negative-index
behaviour) as `pyTake`.
-/

namespace Monitor

/-! ## Definitions: the embedded program -/

/-- Model of `urllib.parse`'s scheme separator search: returns the part of
the character list after the first `"://"`, if any. -/
def afterSchemeSep : List Char → Option (List Char)
  | ':' :: '/' :: '/' :: rest => some rest
  | _ :: rest => afterSchemeSep rest
  | [] => none

/-- Model of `urlparse(url).path` for the URL shapes the monitor handles:
the fragment (`#…`) and query (`?…`) are stripped; if a `"://"` scheme
separator is present the path starts at the first `/` after the authority,
otherwise the whole remaining string is the path (as `urlparse` does for
scheme-less strings). -/
def urlPathChars (u : List Char) : List Char :=
  let stripped := (u.takeWhile (· ≠ '#')).takeWhile (· ≠ '?')
  match afterSchemeSep stripped with
  | some rest => rest.dropWhile (· ≠ '/')
  | none => stripped

/-- Model of `urlparse(url).netloc`: the part between `"://"` and the next
`/` (empty when there is no scheme separator). -/
def urlNetloc (u : String) : String :=
  match afterSchemeSep ((u.data.takeWhile (· ≠ '#')).takeWhile (· ≠ '?')) with
  | some rest => ⟨rest.takeWhile (· ≠ '/')⟩
  | none => ""

/-- Model of `site["url"].rstrip("/")`. -/
def rstripSlash (s : String) : String :=
  ⟨(s.data.reverse.dropWhile (· = '/')).reverse⟩

/-- Embedding of `should_include(url, include_paths, exclude_paths)` from `monitor.py`
(lines 203–212): the URL's path must start with one of the include
prefixes when any are configured, and must not start with any exclude
prefix. -/
def should_include (url : String) (include_paths exclude_paths : List String) : Bool :=
  let path0 := urlPathChars url.data
  let path := if path0 = [] then ['/'] else path0
  if !include_paths.isEmpty && !(include_paths.any (fun p => p.data.isPrefixOf path)) then
    false
  else if !exclude_paths.isEmpty && (exclude_paths.any (fun p => p.data.isPrefixOf path)) then
    false
  else
    true

/-- The `limits` block of the configuration (`Limits` dataclass); all
fields are Python `int`s. `request_retries` is kept as `Nat` because it is
only ever used as `range(retries + 1)`. -/
structure Limits where
  max_urls_per_site : Int
  max_total_urls : Int
  request_timeout_sec : Int
  request_retries : Nat
  polite_sleep_ms : Int
deriving DecidableEq

/-- Python's `xs[:k]` slice on a list, including the negative-`k`
behaviour (`xs[:-n]` drops the last `n` elements). -/
def pyTake {α : Type} (k : Int) (l : List α) : List α :=
  if 0 ≤ k then l.take k.toNat else l.take (l.length - (-k).toNat)

/-- Embedding of `clamp_urls(urls, limits, remaining_total_budget)` (lines 234–237):
`take = min(limits.max_urls_per_site, remaining_total_budget)` and
`set(list(urls)[:take])`.  The `set(...)` conversion is modelled by
`dedup` (membership-faithful; iteration order of a Python set is
unspecified anyway). -/
def clamp_urls (urls : List String) (limits : Limits) (remaining_total_budget : Int) :
    List String :=
  (pyTake (min limits.max_urls_per_site remaining_total_budget) urls).dedup

/-- A persisted URL record: `{"hash": ..., "len": ...}`. -/
structure UrlRecord where
  hash : String
  len : Int
deriving DecidableEq

/-- A Python `dict` keyed by strings, as an insertion-ordered association
list. -/
abbrev AList (α : Type) := List (String × α)

/-- Model of `d.get(k)` on a Python dict. -/
def alGet {α : Type} : AList α → String → Option α
  | [], _ => none
  | (k', v) :: m, k => if k = k' then some v else alGet m k

/-- Model of `d[k] = v` on a Python dict: replaces the value in place when the key
exists, otherwise appends the new binding at the end. -/
def alSet {α : Type} : AList α → String → α → AList α
  | [], k, v => [(k, v)]
  | (k', v') :: m, k, v => if k = k' then (k, v) :: m else (k', v') :: alSet m k v

/-- The type of the `site_state["urls"]` mapping. -/
abbrev UrlMap := AList UrlRecord

/-- One configured site entry: `{url, include_paths[], exclude_paths[]}`. -/
structure Site where
  url : String
  include_paths : List String
  exclude_paths : List String
deriving DecidableEq

/-- The deterministic environment of one run; see the module docstring. -/
structure World where
  fp : String → Option (String × Int)
  discovered : String → List String

/-- The fingerprint-comparison loop of `main` (step 4, lines 334–349):
for each kept URL, fingerprint it (a fetch failure skips the URL), classify
it New when absent from the site state, Changed when the digest differs and
`abs(L - prev_len) >= change_threshold`, and in every successful case
overwrite `site_state["urls"][u] = {"hash": h, "len": L}`. -/
def classifyLoop (threshold : Int) (fp : String → Option (String × Int)) :
    List String → UrlMap → List String × List String × UrlMap
  | [], st => ([], [], st)
  | u :: rest, st =>
    match fp u with
    | none => classifyLoop threshold fp rest st
    | some (h, L) =>
      match alGet st u with
      | none =>
        let r := classifyLoop threshold fp rest (alSet st u ⟨h, L⟩)
        (u :: r.1, r.2.1, r.2.2)
      | some prev =>
        let r := classifyLoop threshold fp rest (alSet st u ⟨h, L⟩)
        (r.1, if prev.hash ≠ h ∧ threshold ≤ |L - prev.len| then u :: r.2.1 else r.2.1,
          r.2.2)

/-- The gone-detection loop of `main` (step 5, lines 352–358): iterate the
keys of the (already step-4-updated) site state; skip a key only when
`include_paths` is non-empty and `should_include` rejects it; classify it
Gone when it is not in `current_set` (the kept URL set). -/
def goneList (include_paths exclude_paths : List String) (current : List String)
    (st : UrlMap) : List String :=
  (st.map Prod.fst).filter
    (fun u => (include_paths.isEmpty || should_include u include_paths exclude_paths)
      && !(decide (u ∈ current)))

/-- Everything `main` produces for one site, plus ghost fields
(`filtered`, `budgetBefore`) recording intermediate values for the budget
theorems. -/
structure SiteResult where
  siteUrl : String
  domain : String
  filtered : List String
  budgetBefore : Int
  kept : List String
  newUrls : List String
  changedUrls : List String
  goneUrls : List String
deriving DecidableEq

/-- Steps 1–5 of `main` for one site: discovery (abstracted into the
`World`), include/exclude filtering, budget clamping, the fingerprint
classification loop, and gone detection.  Returns the per-site results and
the updated `site_state["urls"]` mapping. -/
def processSite (w : World) (threshold : Int) (limits : Limits) (site : Site)
    (priorUrls : UrlMap) (remaining : Int) : SiteResult × UrlMap :=
  let base := rstripSlash site.url
  let discoveredSet := (w.discovered base).dedup
  let filtered :=
    discoveredSet.filter (fun u => should_include u site.include_paths site.exclude_paths)
  let kept := clamp_urls filtered limits remaining
  let r := classifyLoop threshold w.fp kept priorUrls
  let gone := goneList site.include_paths site.exclude_paths kept r.2.2
  (⟨site.url, urlNetloc base, filtered, remaining, kept, r.1, r.2.1, gone⟩, r.2.2)

/-- One `state["sites"]` entry: `{"urls": {...}, "last_run": ...}`. -/
structure SiteState where
  urls : UrlMap
  last_run : Int
deriving DecidableEq

/-- The persisted state: `{"sites": {...}}`. -/
structure RunState where
  sites : AList SiteState
deriving DecidableEq

/-- Model of `state["sites"].get(domain_key, {"urls": {}, "last_run": 0})`. -/
def getSiteState (st : RunState) (d : String) : SiteState :=
  (alGet st.sites d).getD ⟨[], 0⟩

/-- Model of `state["sites"][domain_key] = site_state`. -/
def setSiteState (st : RunState) (d : String) (s : SiteState) : RunState :=
  ⟨alSet st.sites d s⟩

/-- The domain key `urlparse(base).netloc` computed for a site. -/
def siteDomain (site : Site) : String := urlNetloc (rstripSlash site.url)

/-- The site loop of `main` (lines 302–387): process sites in order,
decrement the shared budget by the number of kept URLs, and break out of
the loop once `remaining_total <= 0`. -/
def runSites (w : World) (threshold : Int) (limits : Limits) (ts : Int) :
    List Site → RunState → Int → RunState × List SiteResult
  | [], st, _ => (st, [])
  | site :: rest, st, remaining =>
    let domain := siteDomain site
    let prior := getSiteState st domain
    let pr := processSite w threshold limits site prior.urls remaining
    let remaining' := remaining - pr.1.kept.length
    let st' := setSiteState st domain ⟨pr.2, ts⟩
    if remaining' ≤ 0 then (st', [pr.1])
    else
      let rr := runSites w threshold limits ts rest st' remaining'
      (rr.1, pr.1 :: rr.2)

/-- The content handed to `post_to_slack`, abstracted structurally (the
collaborator itself is external to the core). -/
inductive SlackMsg where
  | report (domain : String) (newUrls changedUrls goneUrls : List String)
  | initNotice (numSites : Nat)
  | noChange
deriving DecidableEq

/-- Embedding of `main` (lines 288–408): detect cold start, run the site loop starting
from the full budget `max_total_urls`, collect a report per site whose
blocks are non-empty (suppressed entirely on cold start), then either send
the single one-line initialization notice (cold start), the per-site
reports, or the "no significant change" line.  The returned state is the
one passed to `save_state`. -/
def runMain (w : World) (sitesCfg : List Site) (threshold : Int) (limits : Limits)
    (stateFileExists : Bool) (st0 : RunState) (ts : Int) : RunState × List SlackMsg :=
  let isColdStart := !stateFileExists || st0.sites.isEmpty
  let rr := runSites w threshold limits ts sitesCfg st0 limits.max_total_urls
  let allReports := rr.2.filter
    (fun r => (!r.newUrls.isEmpty || !r.changedUrls.isEmpty || !r.goneUrls.isEmpty)
      && !isColdStart)
  let messages :=
    if isColdStart && allReports.isEmpty then
      [SlackMsg.initNotice sitesCfg.length]
    else if !allReports.isEmpty then
      allReports.map (fun r => SlackMsg.report r.domain r.newUrls r.changedUrls r.goneUrls)
    else
      [SlackMsg.noChange]
  (rr.1, messages)

/-- The per-domain URL maps of a run state, discarding timestamps. -/
def urlsMaps (st : RunState) : AList UrlMap := st.sites.map (fun p => (p.1, p.2.urls))

/-- Masking the New and Changed lists of a site result. -/
def maskResult (r : SiteResult) : SiteResult :=
  ⟨r.siteUrl, r.domain, r.filtered, r.budgetBefore, r.kept, [], [], r.goneUrls⟩

/-- The parse result of one fetched sitemap document: the
`.//sm:sitemap/sm:loc` entries (child sitemaps) and the `.//sm:url/sm:loc`
entries (page URLs), already text-stripped. -/
structure SitemapDoc where
  sitemaps : List String
  urls : List String
deriving DecidableEq

/-- The inner urlset-extraction loop: add each page location to the
collected set and break as soon as the per-site cap is reached
(`if len(collected) >= limits.max_urls_per_site: break`). -/
def collectLocs (limit : Int) : List String → Finset String → Finset String
  | [], c => c
  | l :: ls, c =>
    if limit ≤ ((insert l c).card : Int) then insert l c
    else collectLocs limit ls (insert l c)

/-- The work-stack traversal of `parse_sitemap_collect`: pop a URL, skip
it if already seen, otherwise mark it seen and fetch+parse it (`world`,
an association list, plays the part of the network: `none` means the fetch
or the XML parse raised).  Child sitemap locations are pushed on the stack
(the reversal reflects pop-from-the-end of a Python list used as a stack)
and page locations are collected under the cap.  Also records, in order,
each URL actually fetched.  Termination: each iteration either marks a
previously unseen fetchable URL as seen or shortens the stack. -/
def sitemapLoop (world : AList SitemapDoc) (limit : Int) :
    List String → Finset String → Finset String → List String →
    Finset String × List String
  | [], _, collected, fetched => (collected, fetched)
  | cur :: rest, seen, collected, fetched =>
    if (collected.card : Int) < limit then
      if hseen : cur ∈ seen then
        sitemapLoop world limit rest seen collected fetched
      else
        match hdoc : alGet world cur with
        | none =>
          sitemapLoop world limit rest (insert cur seen) collected (fetched ++ [cur])
        | some doc =>
          sitemapLoop world limit (doc.sitemaps.reverse ++ rest) (insert cur seen)
            (collectLocs limit doc.urls collected) (fetched ++ [cur])
    else (collected, fetched)
termination_by stack seen _ _ =>
  ((((world.map Prod.fst).toFinset) \ seen).card, stack.length)
decreasing_by
  · exact Prod.Lex.right _ (Nat.lt_succ_self _)
  · have hnm : ∀ (m : AList SitemapDoc), alGet m cur = none → cur ∉ m.map Prod.fst := by
      intro m
      induction m with
      | nil => intro _ hc; cases hc
      | cons kv m ih =>
        obtain ⟨k0, v0⟩ := kv
        intro hget
        by_cases hc : cur = k0
        · rw [alGet, if_pos hc] at hget
          exact Option.noConfusion hget
        · rw [alGet, if_neg hc] at hget
          simp only [List.map_cons, List.mem_cons]
          exact fun hm => hm.elim hc (ih hget)
    have hk : cur ∉ (world.map Prod.fst).toFinset := by
      rw [List.mem_toFinset]
      exact hnm world hdoc
    rw [Finset.sdiff_insert, Finset.erase_eq_of_not_mem
      (fun hmem => hk (Finset.mem_sdiff.mp hmem).1)]
    exact Prod.Lex.right _ (Nat.lt_succ_self _)
  · have hsm : ∀ (m : AList SitemapDoc), alGet m cur = some doc →
        cur ∈ m.map Prod.fst := by
      intro m
      induction m with
      | nil => intro hget; exact Option.noConfusion hget
      | cons kv m ih =>
        obtain ⟨k0, v0⟩ := kv
        intro hget
        by_cases hc : cur = k0
        · simp [hc]
        · rw [alGet, if_neg hc] at hget
          exact List.mem_cons_of_mem _ (ih hget)
    have hk : cur ∈ (world.map Prod.fst).toFinset := by
      rw [List.mem_toFinset]
      exact hsm world hdoc
    rw [Finset.sdiff_insert]
    exact Prod.Lex.left _ _
      (Finset.card_erase_lt_of_mem (Finset.mem_sdiff.mpr ⟨hk, hseen⟩))

/-- Embedding of `parse_sitemap_collect(url, timeout, retries, limits)`: stack seeded
with the chosen sitemap URL, empty seen and collected sets.  Returns the
collected page-URL set together with the ordered list of sitemap URLs that
were fetched. -/
def parse_sitemap_collect (world : AList SitemapDoc) (limit : Int) (url : String) :
    Finset String × List String :=
  sitemapLoop world limit [url] ∅ ∅ []

/-- Embedding of `backoff_sleep(attempt)`, which sleeps `min(2 ** attempt * 0.5, 4.0)` seconds.
All float values involved (0.5, 1.0, 2.0, 4.0) are exactly representable,
so the durations are modelled as rationals. -/
def backoffDelay (attempt : Nat) : ℚ := min ((2 : ℚ) ^ attempt * (1 / 2)) 4

/-- The attempt loop of `fetch` starting at index `attempt`, with
`remaining` further attempts allowed after the current one.  `world i`
models the outcome of the `i`-th `requests.get` together with
`raise_for_status` (`.error e` = exception or non-2xx status).  Returns
the number of GET attempts made, the backoff sleeps performed in order,
and the final outcome (`.error e` = the last error re-raised to the
caller after all attempts were used). -/
def fetchAux (world : Nat → Except String String) :
    Nat → Nat → Nat × List ℚ × Except String String
  | attempt, remaining =>
    match world attempt with
    | .ok r => (1, [], .ok r)
    | .error e =>
      match remaining with
      | 0 => (1, [], .error e)
      | n + 1 =>
        ((fetchAux world (attempt + 1) n).1 + 1,
         backoffDelay attempt :: (fetchAux world (attempt + 1) n).2.1,
         (fetchAux world (attempt + 1) n).2.2)

/-- Embedding of `fetch(url, headers, timeout, retries)`: the attempt loop runs over
`range(retries + 1)`. -/
def fetch (world : Nat → Except String String) (retries : Nat) :
    Nat × List ℚ × Except String String :=
  fetchAux world 0 retries

/-- A world where `/a` fingerprints to `("h2", 10)` and discovery finds
exactly `/a`. -/
def wA : World :=
  ⟨fun u => if u = "https://e.com/a" then some ("h2", 10) else none,
   fun _ => ["https://e.com/a"]⟩

/-- A world where discovery finds `/a` but its fingerprint fetch fails. -/
def wFail : World := ⟨fun _ => none, fun _ => ["https://e.com/a"]⟩

/-- A world where discovery finds nothing and every fetch fails. -/
def wNone : World := ⟨fun _ => none, fun _ => []⟩

/-- A world serving three discovered URLs for `e.com` and two for
`f.com` (all fingerprint fetches fail; only budgets matter). -/
def wTwo : World :=
  ⟨fun _ => none,
   fun b => if b = "https://e.com" then
      ["https://e.com/1", "https://e.com/2", "https://e.com/3"]
    else ["https://f.com/1", "https://f.com/2"]⟩

def siteA : Site := ⟨"https://e.com", [], []⟩

def siteF : Site := ⟨"https://f.com", [], []⟩

/-- A site with an exclude prefix and no include prefixes. -/
def siteX : Site := ⟨"https://e.com", [], ["/x"]⟩

def limA : Limits := ⟨5, 9, 20, 2, 150⟩

def limB : Limits := ⟨2, 3, 20, 2, 150⟩

def priorA : UrlMap := [("https://e.com/a", ⟨"h1", 7⟩)]

def priorX : UrlMap := [("https://e.com/x/a", ⟨"h", 1⟩)]

/-- A prior run state whose only record is a URL that discovery no longer
finds. -/
def stGone : RunState := ⟨[("e.com", ⟨[("https://e.com/gone", ⟨"h", 5⟩)], 0⟩)]⟩

/-- A prior run state with a stale record for `/old`. -/
def stOld : RunState := ⟨[("e.com", ⟨[("https://e.com/old", ⟨"h0", 1⟩)], 0⟩)]⟩

/-- A one-document sitemap world whose sitemap index references itself
and also lists two page URLs. -/
def sitemapWorld : AList SitemapDoc :=
  [("https://e.com/s.xml",
    ⟨["https://e.com/s.xml"], ["https://e.com/a", "https://e.com/b"]⟩)]

/-! ## Theorems -/

@[simp]

theorem alGet_nil {α : Type} (k : String) : alGet ([] : AList α) k = none := rfl

theorem alGet_alSet_self {α : Type} (m : AList α) (k : String) (v : α) :
    alGet (alSet m k v) k = some v := by
  induction m with
  | nil => simp [alGet, alSet]
  | cons kv m ih =>
    obtain ⟨k', v'⟩ := kv
    by_cases h : k = k' <;> simp [alGet, alSet, h, ih]

theorem alGet_alSet_ne {α : Type} (m : AList α) (k k' : String) (v : α) (h : k' ≠ k) :
    alGet (alSet m k v) k' = alGet m k' := by
  induction m with
  | nil => simp [alGet, alSet, h]
  | cons kv m ih =>
    obtain ⟨k₀, v₀⟩ := kv
    by_cases hk : k = k₀
    · subst hk
      simp [alGet, alSet, h]
    · by_cases hk' : k' = k₀ <;> simp [alGet, alSet, hk, hk', ih]

/-- Writing back the value already stored at a key leaves the dict
unchanged. -/
theorem alSet_same {α : Type} (m : AList α) (k : String) (v : α)
    (h : alGet m k = some v) : alSet m k v = m := by
  induction m with
  | nil => simp [alGet] at h
  | cons kv m ih =>
    obtain ⟨k₀, v₀⟩ := kv
    by_cases hk : k = k₀
    · subst hk
      simp [alGet] at h
      simp [alSet, h]
    · simp [alGet, hk] at h
      simp [alSet, hk, ih h]

/-- Key presence is preserved by `alSet`. -/
theorem alGet_alSet_isSome {α : Type} (m : AList α) (k k' : String) (v v' : α)
    (h : alGet m k' = some v') : ∃ w, alGet (alSet m k v) k' = some w := by
  by_cases hk : k' = k
  · subst hk
    exact ⟨v, alGet_alSet_self m k' v⟩
  · exact ⟨v', (alGet_alSet_ne m k k' v hk).trans h⟩

/-- A URL whose fingerprint fetch fails keeps its state entry unchanged. -/
theorem classifyLoop_get_of_fpnone (threshold : Int) (fp : String → Option (String × Int))
    (urls : List String) (st : UrlMap) (u : String) (hfp : fp u = none) :
    alGet (classifyLoop threshold fp urls st).2.2 u = alGet st u := by
  induction urls generalizing st with
  | nil => simp [classifyLoop]
  | cons v rest ih =>
    cases hfpv : fp v with
    | none => simp [classifyLoop, hfpv, ih]
    | some hL =>
      obtain ⟨h, L⟩ := hL
      have hvu : v ≠ u := by
        intro hvu
        rw [hvu, hfp] at hfpv
        exact Option.noConfusion hfpv
      cases hg : alGet st v <;>
        simp [classifyLoop, hfpv, hg, ih, alGet_alSet_ne _ _ _ _ (Ne.symm hvu)]

/-- If the state already holds exactly the current fingerprint of `u`,
the loop never changes `u`'s entry (every write to `u` writes that same
fingerprint). -/
theorem classifyLoop_get_keep (threshold : Int) (fp : String → Option (String × Int))
    (urls : List String) (st : UrlMap) (u h L : _) (hfp : fp u = some (h, L))
    (hst : alGet st u = some ⟨h, L⟩) :
    alGet (classifyLoop threshold fp urls st).2.2 u = some ⟨h, L⟩ := by
  induction urls generalizing st with
  | nil => simpa [classifyLoop] using hst
  | cons v rest ih =>
    by_cases hvu : v = u
    · subst hvu
      have hkeep := ih (alSet st v ⟨h, L⟩) (alGet_alSet_self st v ⟨h, L⟩)
      simp [classifyLoop, hfp, hst, hkeep]
    · cases hfpv : fp v with
      | none => simp [classifyLoop, hfpv, ih st hst]
      | some hL' =>
        obtain ⟨h', L'⟩ := hL'
        have hset : alGet (alSet st v ⟨h', L'⟩) u = some ⟨h, L⟩ :=
          (alGet_alSet_ne st v u ⟨h', L'⟩ (fun he => hvu he.symm)).trans hst
        cases hg : alGet st v <;> simp [classifyLoop, hfpv, hg, ih _ hset]

/-- Every successfully fingerprinted URL ends up with exactly the current
`(digest, length)` record. -/
theorem classifyLoop_get_write (threshold : Int) (fp : String → Option (String × Int))
    (urls : List String) (st : UrlMap) (u h L : _) (hfp : fp u = some (h, L))
    (hu : u ∈ urls) :
    alGet (classifyLoop threshold fp urls st).2.2 u = some ⟨h, L⟩ := by
  induction urls generalizing st with
  | nil => cases hu
  | cons v rest ih =>
    by_cases hvu : v = u
    · subst hvu
      rw [classifyLoop]
      rw [hfp]
      cases hg : alGet st v with
      | none =>
        simpa using classifyLoop_get_keep threshold fp rest _ v h L hfp
          (alGet_alSet_self st v ⟨h, L⟩)
      | some prev =>
        simpa using classifyLoop_get_keep threshold fp rest _ v h L hfp
          (alGet_alSet_self st v ⟨h, L⟩)
    · have hu' : u ∈ rest := by
        cases hu with
        | head => exact absurd rfl hvu
        | tail _ h => exact h
      cases hfpv : fp v with
      | none => simp [classifyLoop, hfpv, ih _ hu']
      | some hL' =>
        obtain ⟨h', L'⟩ := hL'
        cases hg : alGet st v <;> simp [classifyLoop, hfpv, hg, ih _ hu']

/-- The loop never deletes a state key. -/
theorem classifyLoop_get_mono (threshold : Int) (fp : String → Option (String × Int))
    (urls : List String) (st : UrlMap) (u : String) (r : UrlRecord)
    (h : alGet st u = some r) :
    ∃ r', alGet (classifyLoop threshold fp urls st).2.2 u = some r' := by
  induction urls generalizing st r with
  | nil => exact ⟨r, by simpa [classifyLoop] using h⟩
  | cons v rest ih =>
    cases hfpv : fp v with
    | none =>
      obtain ⟨r', hr'⟩ := ih st r h
      exact ⟨r', by simp [classifyLoop, hfpv, hr']⟩
    | some hL =>
      obtain ⟨h', L'⟩ := hL
      obtain ⟨w, hw⟩ := alGet_alSet_isSome st v u ⟨h', L'⟩ r h
      obtain ⟨r', hr'⟩ := ih _ w hw
      cases hg : alGet st v <;> exact ⟨r', by simp [classifyLoop, hfpv, hg, hr']⟩

/-- Membership in the New list implies membership in the input URL list. -/
theorem classifyLoop_new_subset (threshold : Int) (fp : String → Option (String × Int))
    (urls : List String) (st : UrlMap) (u : String)
    (h : u ∈ (classifyLoop threshold fp urls st).1) : u ∈ urls := by
  induction urls generalizing st with
  | nil => simp [classifyLoop] at h
  | cons v rest ih =>
    cases hfpv : fp v with
    | none =>
      rw [classifyLoop, hfpv] at h
      exact List.mem_cons_of_mem v (ih _ h)
    | some hL =>
      obtain ⟨h', L'⟩ := hL
      cases hg : alGet st v with
      | none =>
        rw [classifyLoop, hfpv, hg] at h
        simp only [List.mem_cons] at h
        cases h with
        | inl he => exact he ▸ List.mem_cons_self v rest
        | inr hm => exact List.mem_cons_of_mem v (ih _ hm)
      | some prev =>
        rw [classifyLoop, hfpv, hg] at h
        exact List.mem_cons_of_mem v (ih _ h)

/-- Membership in the Changed list implies membership in the input URL
list. -/
theorem classifyLoop_changed_subset (threshold : Int) (fp : String → Option (String × Int))
    (urls : List String) (st : UrlMap) (u : String)
    (h : u ∈ (classifyLoop threshold fp urls st).2.1) : u ∈ urls := by
  induction urls generalizing st with
  | nil => simp [classifyLoop] at h
  | cons v rest ih =>
    cases hfpv : fp v with
    | none =>
      rw [classifyLoop, hfpv] at h
      exact List.mem_cons_of_mem v (ih _ h)
    | some hL =>
      obtain ⟨h', L'⟩ := hL
      cases hg : alGet st v with
      | none =>
        rw [classifyLoop, hfpv, hg] at h
        exact List.mem_cons_of_mem v (ih _ h)
      | some prev =>
        rw [classifyLoop, hfpv, hg] at h
        by_cases hc : prev.hash ≠ h' ∧ threshold ≤ |L' - prev.len|
        · simp only [if_pos hc, List.mem_cons] at h
          cases h with
          | inl he => exact he ▸ List.mem_cons_self v rest
          | inr hm => exact List.mem_cons_of_mem v (ih _ hm)
        · simp only [if_neg hc] at h
          exact List.mem_cons_of_mem v (ih _ h)

/-- A URL whose fingerprint fetch fails is classified neither New nor
Changed. -/
theorem classifyLoop_not_classified_of_fpnone (threshold : Int)
    (fp : String → Option (String × Int)) (urls : List String) (st : UrlMap)
    (u : String) (hfp : fp u = none) :
    u ∉ (classifyLoop threshold fp urls st).1
      ∧ u ∉ (classifyLoop threshold fp urls st).2.1 := by
  induction urls generalizing st with
  | nil => simp [classifyLoop]
  | cons v rest ih =>
    cases hfpv : fp v with
    | none => simpa [classifyLoop, hfpv] using ih st
    | some hL =>
      obtain ⟨h', L'⟩ := hL
      have hvu : v ≠ u := by
        intro hvu
        rw [hvu, hfp] at hfpv
        exact Option.noConfusion hfpv
      cases hg : alGet st v with
      | none =>
        have := ih (alSet st v ⟨h', L'⟩)
        simp only [classifyLoop, hfpv, hg]
        constructor
        · simp only [List.mem_cons, not_or]
          exact ⟨fun he => hvu he.symm, this.1⟩
        · exact this.2
      | some prev =>
        have := ih (alSet st v ⟨h', L'⟩)
        simp only [classifyLoop, hfpv, hg]
        refine ⟨this.1, ?_⟩
        by_cases hc : prev.hash ≠ h' ∧ threshold ≤ |L' - prev.len|
        · simp only [if_pos hc, List.mem_cons, not_or]
          exact ⟨fun he => hvu he.symm, this.2⟩
        · simpa [if_neg hc] using this.2

/-- If the state already holds the current fingerprint of every input URL,
the loop classifies nothing and leaves the state untouched. -/
theorem classifyLoop_sat (threshold : Int) (fp : String → Option (String × Int))
    (urls : List String) (st : UrlMap)
    (hsat : ∀ u ∈ urls, ∀ h L, fp u = some (h, L) → alGet st u = some ⟨h, L⟩) :
    classifyLoop threshold fp urls st = ([], [], st) := by
  induction urls generalizing st with
  | nil => rfl
  | cons v rest ih =>
    have hrest : ∀ u ∈ rest, ∀ h L, fp u = some (h, L) → alGet st u = some ⟨h, L⟩ :=
      fun u hu h L hf => hsat u (List.mem_cons_of_mem v hu) h L hf
    cases hfpv : fp v with
    | none => simp [classifyLoop, hfpv, ih st hrest]
    | some hL =>
      obtain ⟨h, L⟩ := hL
      have hg : alGet st v = some ⟨h, L⟩ := hsat v (List.mem_cons_self v rest) h L hfpv
      have hset : alSet st v ⟨h, L⟩ = st := alSet_same st v ⟨h, L⟩ hg
      simp [classifyLoop, hfpv, hg, hset, ih st hrest]

/-- Core of the threshold-boundary claim: a URL fingerprinted this run
that is in the prior state with a differing digest lands in the Changed
list exactly when `change_threshold ≤ |L - prev.len|`, and is never in the
New list. -/
theorem classifyLoop_changed_iff (threshold : Int) (fp : String → Option (String × Int))
    (urls : List String) (st : UrlMap) (u : String) (h : String) (L : Int)
    (prev : UrlRecord) (hnd : urls.Nodup) (hu : u ∈ urls) (hfp : fp u = some (h, L))
    (hprev : alGet st u = some prev) (hdiff : prev.hash ≠ h) :
    (u ∈ (classifyLoop threshold fp urls st).2.1 ↔ threshold ≤ |L - prev.len|)
      ∧ u ∉ (classifyLoop threshold fp urls st).1 := by
  induction urls generalizing st with
  | nil => cases hu
  | cons v rest ih =>
    obtain ⟨hvnotin, hndr⟩ := List.nodup_cons.mp hnd
    by_cases hvu : v = u
    · subst hvu
      have hns : v ∉ (classifyLoop threshold fp rest (alSet st v ⟨h, L⟩)).1 :=
        fun hm => hvnotin (classifyLoop_new_subset _ _ _ _ _ hm)
      have hcs : v ∉ (classifyLoop threshold fp rest (alSet st v ⟨h, L⟩)).2.1 :=
        fun hm => hvnotin (classifyLoop_changed_subset _ _ _ _ _ hm)
      by_cases hth : threshold ≤ |L - prev.len|
      · simp [classifyLoop, hfp, hprev, hdiff, hth, hns]
      · simp [classifyLoop, hfp, hprev, hdiff, hth, hns, hcs]
    · have hu' : u ∈ rest := by
        cases hu with
        | head => exact absurd rfl hvu
        | tail _ hmem => exact hmem
      have huv : u ≠ v := fun he => hvu he.symm
      cases hfpv : fp v with
      | none =>
        have := ih st hndr hu' hprev
        simpa [classifyLoop, hfpv] using this
      | some hL' =>
        obtain ⟨h', L'⟩ := hL'
        have hprev' : alGet (alSet st v ⟨h', L'⟩) u = some prev :=
          (alGet_alSet_ne st v u ⟨h', L'⟩ huv).trans hprev
        have hihr := ih _ hndr hu' hprev'
        cases hg : alGet st v with
        | none =>
          simp only [classifyLoop, hfpv, hg]
          refine ⟨hihr.1, ?_⟩
          simp only [List.mem_cons, not_or]
          exact ⟨huv, hihr.2⟩
        | some prev₀ =>
          simp only [classifyLoop, hfpv, hg]
          refine ⟨?_, hihr.2⟩
          by_cases hc : prev₀.hash ≠ h' ∧ threshold ≤ |L' - prev₀.len|
          · rw [if_pos hc]
            rw [List.mem_cons, or_iff_right huv]
            exact hihr.1
          · rw [if_neg hc]
            exact hihr.1

/-! ## Lemmas about clamping and gone detection -/

theorem mem_goneList_iff (inc exc : List String) (current : List String) (st : UrlMap)
    (u : String) :
    u ∈ goneList inc exc current st ↔
      u ∈ st.map Prod.fst
        ∧ (inc.isEmpty = true ∨ should_include u inc exc = true)
        ∧ u ∉ current := by
  simp [goneList, List.mem_filter]

theorem clamp_urls_subset (urls : List String) (limits : Limits) (b : Int) (u : String)
    (h : u ∈ clamp_urls urls limits b) : u ∈ urls := by
  rw [clamp_urls] at h
  rw [List.mem_dedup] at h
  rw [pyTake] at h
  by_cases hb : 0 ≤ min limits.max_urls_per_site b
  · rw [if_pos hb] at h
    exact List.take_subset _ _ h
  · rw [if_neg hb] at h
    exact List.take_subset _ _ h

theorem clamp_urls_nodup (urls : List String) (limits : Limits) (b : Int) :
    (clamp_urls urls limits b).Nodup := List.nodup_dedup _

theorem clamp_urls_length_le (urls : List String) (limits : Limits) (b : Int)
    (hp : 0 ≤ limits.max_urls_per_site) (hb : 0 ≤ b) :
    ((clamp_urls urls limits b).length : Int) ≤ min limits.max_urls_per_site b := by
  have hmin : 0 ≤ min limits.max_urls_per_site b := le_min hp hb
  have h1 : (clamp_urls urls limits b).length
      ≤ (pyTake (min limits.max_urls_per_site b) urls).length :=
    (List.dedup_sublist _).length_le
  rw [pyTake, if_pos hmin] at h1
  have h2 : (urls.take (min limits.max_urls_per_site b).toNat).length
      ≤ (min limits.max_urls_per_site b).toNat := by
    rw [List.length_take]
    exact Nat.min_le_left _ _
  calc ((clamp_urls urls limits b).length : Int)
      ≤ ((min limits.max_urls_per_site b).toNat : Int) := by exact_mod_cast h1.trans h2
    _ = min limits.max_urls_per_site b := Int.toNat_of_nonneg hmin

theorem clamp_urls_length_eq (urls : List String) (limits : Limits) (b : Int)
    (hnd : urls.Nodup) (hp : 0 ≤ limits.max_urls_per_site) (hb : 0 ≤ b) :
    ((clamp_urls urls limits b).length : Int)
      = min (urls.length : Int) (min limits.max_urls_per_site b) := by
  have hmin : 0 ≤ min limits.max_urls_per_site b := le_min hp hb
  have htake : pyTake (min limits.max_urls_per_site b) urls
      = urls.take (min limits.max_urls_per_site b).toNat := by
    rw [pyTake, if_pos hmin]
  have htnd : (urls.take (min limits.max_urls_per_site b).toNat).Nodup :=
    (List.take_sublist _ _).nodup hnd
  rw [clamp_urls, htake, List.dedup_eq_self.mpr htnd, List.length_take]
  push_cast
  rw [Int.toNat_of_nonneg hmin]
  omega

/-- C1 (threshold boundary).  For a URL kept and successfully
fingerprinted this run that is present in the prior site state with a
differing digest: it is classified Changed iff
`change_threshold ≤ |newLength - oldLength|` (so a delta equal to the
threshold is Changed and a delta of threshold − 1 is not), it is not
classified New, and its record is overwritten with the current
`(digest, length)` either way. -/
theorem changed_iff_threshold_boundary (w : World) (threshold : Int) (limits : Limits)
    (site : Site) (prior : UrlMap) (remaining : Int) (u h : String) (L : Int)
    (prev : UrlRecord)
    (hu : u ∈ (processSite w threshold limits site prior remaining).1.kept)
    (hfp : w.fp u = some (h, L))
    (hprev : alGet prior u = some prev)
    (hdiff : prev.hash ≠ h) :
    (u ∈ (processSite w threshold limits site prior remaining).1.changedUrls
        ↔ threshold ≤ |L - prev.len|)
      ∧ u ∉ (processSite w threshold limits site prior remaining).1.newUrls
      ∧ alGet (processSite w threshold limits site prior remaining).2 u = some ⟨h, L⟩ := by
  have hnd : (clamp_urls
      (((w.discovered (rstripSlash site.url)).dedup).filter
        (fun v => should_include v site.include_paths site.exclude_paths))
      limits remaining).Nodup := clamp_urls_nodup _ _ _
  have hu' : u ∈ clamp_urls
      (((w.discovered (rstripSlash site.url)).dedup).filter
        (fun v => should_include v site.include_paths site.exclude_paths))
      limits remaining := hu
  have hmain := classifyLoop_changed_iff threshold w.fp _ prior u h L prev hnd hu' hfp
    hprev hdiff
  have hwrite := classifyLoop_get_write threshold w.fp _ prior u h L hfp hu'
  exact ⟨hmain.1, hmain.2, hwrite⟩

/-- C9 (failed fingerprint is skipped).  A kept URL whose fingerprint
fetch fails after all retries is classified neither New, Changed nor Gone,
and its prior state entry (if any) is left unchanged. -/
theorem fetch_failure_skips (w : World) (threshold : Int) (limits : Limits)
    (site : Site) (prior : UrlMap) (remaining : Int) (u : String)
    (hu : u ∈ (processSite w threshold limits site prior remaining).1.kept)
    (hfp : w.fp u = none) :
    u ∉ (processSite w threshold limits site prior remaining).1.newUrls
      ∧ u ∉ (processSite w threshold limits site prior remaining).1.changedUrls
      ∧ u ∉ (processSite w threshold limits site prior remaining).1.goneUrls
      ∧ alGet (processSite w threshold limits site prior remaining).2 u
          = alGet prior u := by
  have hnc := classifyLoop_not_classified_of_fpnone threshold w.fp
    (clamp_urls
      (((w.discovered (rstripSlash site.url)).dedup).filter
        (fun v => should_include v site.include_paths site.exclude_paths))
      limits remaining) prior u hfp
  refine ⟨hnc.1, hnc.2, ?_, classifyLoop_get_of_fpnone threshold w.fp _ prior u hfp⟩
  intro hg
  have := (mem_goneList_iff _ _ _ _ u).mp hg
  exact this.2.2 hu

/-- Unfolding lemma for one iteration of the site loop. -/
theorem runSites_cons (w : World) (th : Int) (lim : Limits) (ts : Int) (site : Site)
    (rest : List Site) (st : RunState) (remaining : Int) :
    runSites w th lim ts (site :: rest) st remaining
      = if remaining
            - ((processSite w th lim site (getSiteState st (siteDomain site)).urls
                remaining).1.kept.length : Int) ≤ 0 then
          (setSiteState st (siteDomain site)
            ⟨(processSite w th lim site (getSiteState st (siteDomain site)).urls
                remaining).2, ts⟩,
           [(processSite w th lim site (getSiteState st (siteDomain site)).urls
                remaining).1])
        else
          ((runSites w th lim ts rest
              (setSiteState st (siteDomain site)
                ⟨(processSite w th lim site (getSiteState st (siteDomain site)).urls
                    remaining).2, ts⟩)
              (remaining
                - (processSite w th lim site (getSiteState st (siteDomain site)).urls
                    remaining).1.kept.length)).1,
           (processSite w th lim site (getSiteState st (siteDomain site)).urls
              remaining).1
             :: (runSites w th lim ts rest
                  (setSiteState st (siteDomain site)
                    ⟨(processSite w th lim site
                        (getSiteState st (siteDomain site)).urls remaining).2, ts⟩)
                  (remaining
                    - (processSite w th lim site
                        (getSiteState st (siteDomain site)).urls remaining).1.kept.length)).2) :=
  rfl

/-- Sites whose domain key never occurs in the processed list keep their
state entry untouched. -/
theorem runSites_untouched (w : World) (th : Int) (lim : Limits) (ts : Int)
    (sites : List Site) (st : RunState) (remaining : Int) (d : String)
    (hd : ∀ s ∈ sites, siteDomain s ≠ d) :
    alGet (runSites w th lim ts sites st remaining).1.sites d = alGet st.sites d := by
  induction sites generalizing st remaining with
  | nil => rfl
  | cons site rest ih =>
    have hne : d ≠ siteDomain site :=
      fun he => hd site (List.mem_cons_self site rest) he.symm
    rw [runSites_cons]
    split
    · exact alGet_alSet_ne st.sites (siteDomain site) d _ hne
    · rw [ih _ _ (fun s hs => hd s (List.mem_cons_of_mem site hs))]
      exact alGet_alSet_ne st.sites (siteDomain site) d _ hne

theorem alGet_urlsMaps (st : RunState) (d : String) :
    alGet (urlsMaps st) d = (alGet st.sites d).map (fun s => s.urls) := by
  show alGet (st.sites.map _) d = _
  induction st.sites with
  | nil => rfl
  | cons kv m ih =>
    obtain ⟨k, v⟩ := kv
    by_cases h : d = k <;> simp [alGet, h, ih]

theorem urlsMaps_setSiteState (st : RunState) (d : String) (s : SiteState) :
    urlsMaps (setSiteState st d s) = alSet (urlsMaps st) d s.urls := by
  show (alSet st.sites d s).map _ = alSet (st.sites.map _) d s.urls
  induction st.sites with
  | nil => rfl
  | cons kv m ih =>
    obtain ⟨k, v⟩ := kv
    by_cases h : d = k <;> simp [alSet, h, ih]

theorem getSiteState_urls_congr (σ σ' : RunState) (d : String)
    (h : urlsMaps σ = urlsMaps σ') :
    (getSiteState σ d).urls = (getSiteState σ' d).urls := by
  have h1 := alGet_urlsMaps σ d
  have h2 := alGet_urlsMaps σ' d
  rw [h] at h1
  rw [h2] at h1
  unfold getSiteState
  cases hg : alGet σ.sites d <;> cases hg' : alGet σ'.sites d <;>
    rw [hg, hg'] at h1 <;> simp_all

/-- Per-site idempotence: reprocessing a site against the state it itself
just produced classifies nothing New or Changed, leaves the map unchanged,
and reproduces the same Gone list. -/
theorem processSite_stable (w : World) (th : Int) (lim : Limits) (site : Site)
    (prior : UrlMap) (B : Int) :
    processSite w th lim site (processSite w th lim site prior B).2 B
      = (⟨site.url, siteDomain site,
          (processSite w th lim site prior B).1.filtered, B,
          (processSite w th lim site prior B).1.kept, [], [],
          (processSite w th lim site prior B).1.goneUrls⟩,
         (processSite w th lim site prior B).2) := by
  simp only [processSite]
  set K := clamp_urls (((w.discovered (rstripSlash site.url)).dedup).filter
      (fun v => should_include v site.include_paths site.exclude_paths)) lim B with hK
  set M := (classifyLoop th w.fp K prior).2.2 with hM
  have hsat : ∀ u ∈ K, ∀ h L, w.fp u = some (h, L) → alGet M u = some ⟨h, L⟩ :=
    fun u hu h L hfp => classifyLoop_get_write th w.fp K prior u h L hfp hu
  rw [classifyLoop_sat th w.fp K M hsat]
  rfl

@[simp]

theorem processSite_siteUrl (w : World) (th : Int) (lim : Limits) (site : Site)
    (m : UrlMap) (B : Int) : (processSite w th lim site m B).1.siteUrl = site.url := rfl

@[simp]

theorem processSite_domain (w : World) (th : Int) (lim : Limits) (site : Site)
    (m : UrlMap) (B : Int) : (processSite w th lim site m B).1.domain = siteDomain site := rfl

@[simp]

theorem processSite_budgetBefore (w : World) (th : Int) (lim : Limits) (site : Site)
    (m : UrlMap) (B : Int) : (processSite w th lim site m B).1.budgetBefore = B := rfl

/-- Size facts about the kept set of one processed site. -/
theorem processSite_kept_facts (w : World) (th : Int) (lim : Limits) (site : Site)
    (m : UrlMap) (B : Int) (hp : 0 ≤ lim.max_urls_per_site) (hb : 0 ≤ B) :
    ((processSite w th lim site m B).1.kept.length : Int) ≤ min lim.max_urls_per_site B
      ∧ ((processSite w th lim site m B).1.kept.length : Int)
          = min ((processSite w th lim site m B).1.filtered.length : Int)
              (min lim.max_urls_per_site (processSite w th lim site m B).1.budgetBefore) := by
  constructor
  · exact clamp_urls_length_le _ lim B hp hb
  · exact clamp_urls_length_eq _ lim B ((List.nodup_dedup _).filter _) hp hb

/-- Budget invariant of the site loop, generalized over the remaining
budget at entry. -/
theorem runSites_budget (w : World) (th : Int) (lim : Limits) (ts : Int)
    (hp : 0 ≤ lim.max_urls_per_site) (sites : List Site) (st : RunState)
    (remaining : Int) (hrem : 0 ≤ remaining) :
    (((runSites w th lim ts sites st remaining).2.map
        (fun r => (r.kept.length : Int))).sum ≤ remaining)
      ∧ (∀ r ∈ (runSites w th lim ts sites st remaining).2,
          (r.kept.length : Int) ≤ lim.max_urls_per_site
            ∧ (r.kept.length : Int)
                = min (r.filtered.length : Int) (min lim.max_urls_per_site r.budgetBefore)
            ∧ 0 ≤ r.budgetBefore)
      ∧ ((runSites w th lim ts sites st remaining).2.map (fun r => r.siteUrl)
          = (sites.take (runSites w th lim ts sites st remaining).2.length).map
              (fun s => s.url))
      ∧ ((runSites w th lim ts sites st remaining).2.length < sites.length →
          remaining - (((runSites w th lim ts sites st remaining).2.map
            (fun r => (r.kept.length : Int))).sum) ≤ 0) := by
  induction sites generalizing st remaining with
  | nil =>
    refine ⟨by simpa [runSites] using hrem, by simp [runSites], by simp [runSites], ?_⟩
    intro hlt
    simp [runSites] at hlt
  | cons site rest ih =>
    have hfacts := processSite_kept_facts w th lim site
      (getSiteState st (siteDomain site)).urls remaining hp hrem
    rw [runSites_cons]
    split
    next hbr =>
      refine ⟨?_, ?_, ?_, ?_⟩
      · simpa using (hfacts.1.trans (min_le_right _ _))
      · intro r hr
        rw [List.mem_singleton] at hr
        subst hr
        exact ⟨hfacts.1.trans (min_le_left _ _), hfacts.2, hrem⟩
      · simp
      · intro _
        simpa using hbr
    next hbr =>
      have hrem' : 0 ≤ remaining
          - ((processSite w th lim site (getSiteState st (siteDomain site)).urls
              remaining).1.kept.length : Int) := by omega
      obtain ⟨hsum, hall, hpre, hskip⟩ := ih (setSiteState st (siteDomain site)
        ⟨(processSite w th lim site (getSiteState st (siteDomain site)).urls
          remaining).2, ts⟩) _ hrem'
      refine ⟨?_, ?_, ?_, ?_⟩
      · simp only [List.map_cons, List.sum_cons]
        omega
      · intro r hr
        rw [List.mem_cons] at hr
        cases hr with
        | inl he =>
          subst he
          exact ⟨hfacts.1.trans (min_le_left _ _), hfacts.2, hrem⟩
        | inr hm => exact hall r hm
      · simp only [List.map_cons, List.length_cons, List.take_succ_cons, processSite_siteUrl]
        rw [hpre]
      · intro hlt
        simp only [List.length_cons] at hlt
        have := hskip (by omega)
        simp only [List.map_cons, List.sum_cons]
        omega

/-- One site step never deletes a state key (domain or URL). -/
theorem siteStep_preserves_entry (w : World) (th : Int) (lim : Limits) (ts : Int)
    (site : Site) (st : RunState) (remaining : Int) (d : String) (su : SiteState)
    (u : String) (r : UrlRecord) (h1 : alGet st.sites d = some su)
    (h2 : alGet su.urls u = some r) :
    ∃ su' r', alGet (setSiteState st (siteDomain site)
        ⟨(processSite w th lim site (getSiteState st (siteDomain site)).urls
            remaining).2, ts⟩).sites d = some su'
      ∧ alGet su'.urls u = some r' := by
  by_cases hd : d = siteDomain site
  · subst hd
    have hgs : getSiteState st (siteDomain site) = su := by
      unfold getSiteState
      rw [h1]
      rfl
    have hmono := classifyLoop_get_mono th w.fp
      (clamp_urls (((w.discovered (rstripSlash site.url)).dedup).filter
        (fun v => should_include v site.include_paths site.exclude_paths)) lim remaining)
      su.urls u r h2
    obtain ⟨r', hr'⟩ := hmono
    refine ⟨_, r', alGet_alSet_self st.sites (siteDomain site) _, ?_⟩
    rw [hgs]
    exact hr'
  · exact ⟨su, r, (alGet_alSet_ne st.sites (siteDomain site) d _ hd).trans h1, h2⟩

/-- One site step preserves an entry that already equals the URL's current
fingerprint. -/
theorem siteStep_keep_fp (w : World) (th : Int) (lim : Limits) (ts : Int)
    (site : Site) (st : RunState) (remaining : Int) (d : String) (u h : String)
    (L : Int) (hfp : w.fp u = some (h, L))
    (hpre : ∃ su, alGet st.sites d = some su ∧ alGet su.urls u = some ⟨h, L⟩) :
    ∃ su', alGet (setSiteState st (siteDomain site)
        ⟨(processSite w th lim site (getSiteState st (siteDomain site)).urls
            remaining).2, ts⟩).sites d = some su'
      ∧ alGet su'.urls u = some ⟨h, L⟩ := by
  obtain ⟨su, h1, h2⟩ := hpre
  by_cases hd : d = siteDomain site
  · subst hd
    have hgs : getSiteState st (siteDomain site) = su := by
      unfold getSiteState
      rw [h1]
      rfl
    refine ⟨_, alGet_alSet_self st.sites (siteDomain site) _, ?_⟩
    rw [hgs]
    exact classifyLoop_get_keep th w.fp _ su.urls u h L hfp h2
  · exact ⟨su, (alGet_alSet_ne st.sites (siteDomain site) d _ hd).trans h1, h2⟩

/-- The site loop never deletes a state key (domain or URL). -/
theorem runSites_preserves_entry (w : World) (th : Int) (lim : Limits) (ts : Int)
    (sites : List Site) :
    ∀ (st : RunState) (remaining : Int) (d : String) (su : SiteState) (u : String)
      (r : UrlRecord), alGet st.sites d = some su → alGet su.urls u = some r →
      ∃ su' r', alGet (runSites w th lim ts sites st remaining).1.sites d = some su'
        ∧ alGet su'.urls u = some r' := by
  induction sites with
  | nil => exact fun st remaining d su u r h1 h2 => ⟨su, r, h1, h2⟩
  | cons site rest ih =>
    intro st remaining d su u r h1 h2
    rw [runSites_cons]
    split
    · exact siteStep_preserves_entry w th lim ts site st remaining d su u r h1 h2
    · obtain ⟨su', r', hs', hr'⟩ :=
        siteStep_preserves_entry w th lim ts site st remaining d su u r h1 h2
      exact ih _ _ d su' u r' hs' hr'

/-- The site loop preserves entries that match the current fingerprint of
their URL. -/
theorem runSites_keep_fp (w : World) (th : Int) (lim : Limits) (ts : Int)
    (sites : List Site) :
    ∀ (st : RunState) (remaining : Int) (d : String) (u h : String) (L : Int),
      w.fp u = some (h, L) →
      (∃ su, alGet st.sites d = some su ∧ alGet su.urls u = some ⟨h, L⟩) →
      ∃ su', alGet (runSites w th lim ts sites st remaining).1.sites d = some su'
        ∧ alGet su'.urls u = some ⟨h, L⟩ := by
  induction sites with
  | nil => exact fun st remaining d u h L _ hpre => hpre
  | cons site rest ih =>
    intro st remaining d u h L hfp hpre
    rw [runSites_cons]
    split
    · exact siteStep_keep_fp w th lim ts site st remaining d u h L hfp hpre
    · exact ih _ _ d u h L hfp (siteStep_keep_fp w th lim ts site st remaining d u h L hfp hpre)

/-- Every URL successfully fingerprinted for some processed site ends up
in the final state with exactly the current fingerprint, under that site's
domain key. -/
theorem runSites_fp_written (w : World) (th : Int) (lim : Limits) (ts : Int)
    (sites : List Site) :
    ∀ (st : RunState) (remaining : Int),
      ∀ res ∈ (runSites w th lim ts sites st remaining).2,
      ∀ u h L, u ∈ res.kept → w.fp u = some (h, L) →
      ∃ su', alGet (runSites w th lim ts sites st remaining).1.sites res.domain = some su'
        ∧ alGet su'.urls u = some ⟨h, L⟩ := by
  induction sites with
  | nil => intro st remaining res hres; cases hres
  | cons site rest ih =>
    intro st remaining res hres u h L hu hfp
    rw [runSites_cons] at hres ⊢
    split at hres
    next hbr =>
      rw [List.mem_singleton] at hres
      subst hres
      rw [if_pos hbr]
      refine ⟨_, alGet_alSet_self st.sites (siteDomain site) _, ?_⟩
      exact classifyLoop_get_write th w.fp _ _ u h L hfp hu
    next hbr =>
      rw [List.mem_cons] at hres
      rw [if_neg hbr]
      cases hres with
      | inl he =>
        subst he
        refine runSites_keep_fp w th lim ts rest _ _ (siteDomain site) u h L hfp ?_
        refine ⟨_, alGet_alSet_self st.sites (siteDomain site) _, ?_⟩
        exact classifyLoop_get_write th w.fp _ _ u h L hfp hu
      | inr hm => exact ih _ _ res hm u h L hu hfp

theorem getSiteState_eq_of_alGet (st : RunState) (d : String) (s : SiteState)
    (h : alGet st.sites d = some s) : getSiteState st d = s := by
  unfold getSiteState
  rw [h]
  rfl

theorem getSiteState_setSiteState_self (st : RunState) (d : String) (s : SiteState) :
    getSiteState (setSiteState st d s) d = s :=
  getSiteState_eq_of_alGet _ d s (alGet_alSet_self st.sites d s)

/-- Lockstep lemma for a second run: when each site has a distinct domain
key and the starting state agrees (URL-map-wise) with the final state of a
first run over the same sites and budget, the second run classifies
nothing New or Changed, reproduces each site's Gone list, and leaves every
URL map unchanged. -/
theorem runSites_second (w : World) (th : Int) (lim : Limits) (ts1 ts2 : Int)
    (sites : List Site) :
    ∀ (σ1 σ2 : RunState) (B : Int),
      (sites.map siteDomain).Nodup →
      urlsMaps σ2 = urlsMaps (runSites w th lim ts1 sites σ1 B).1 →
      urlsMaps (runSites w th lim ts2 sites σ2 B).1
          = urlsMaps (runSites w th lim ts1 sites σ1 B).1
        ∧ (runSites w th lim ts2 sites σ2 B).2
            = (runSites w th lim ts1 sites σ1 B).2.map maskResult := by
  induction sites with
  | nil => exact fun σ1 σ2 B _ hm => ⟨hm, rfl⟩
  | cons site rest ih =>
    intro σ1 σ2 B hnd hm
    obtain ⟨hdnotin, hndr⟩ := List.nodup_cons.mp hnd
    have hrestne : ∀ s ∈ rest, siteDomain s ≠ siteDomain site :=
      fun s hs he => hdnotin (he ▸ List.mem_map_of_mem siteDomain hs)
    by_cases hbr : B - ((processSite w th lim site
        (getSiteState σ1 (siteDomain site)).urls B).1.kept.length : Int) ≤ 0
    · -- run 1 breaks after this site
      have hrun1 : runSites w th lim ts1 (site :: rest) σ1 B
          = (setSiteState σ1 (siteDomain site)
              ⟨(processSite w th lim site (getSiteState σ1 (siteDomain site)).urls B).2,
                ts1⟩,
             [(processSite w th lim site (getSiteState σ1 (siteDomain site)).urls B).1]) := by
        rw [runSites_cons, if_pos hbr]
      have hurls2 : (getSiteState σ2 (siteDomain site)).urls
          = (processSite w th lim site (getSiteState σ1 (siteDomain site)).urls B).2 := by
        rw [hrun1] at hm
        rw [getSiteState_urls_congr σ2 _ (siteDomain site) hm,
          getSiteState_setSiteState_self]
      have hrun2 : runSites w th lim ts2 (site :: rest) σ2 B
          = (setSiteState σ2 (siteDomain site)
              ⟨(processSite w th lim site (getSiteState σ1 (siteDomain site)).urls B).2,
                ts2⟩,
             [maskResult
               (processSite w th lim site (getSiteState σ1 (siteDomain site)).urls B).1]) := by
        rw [runSites_cons, hurls2, processSite_stable]
        rw [if_pos (by simpa using hbr)]
        rfl
      rw [hrun1, hrun2]
      constructor
      · have h1' : urlsMaps (setSiteState σ1 (siteDomain site)
            ⟨(processSite w th lim site (getSiteState σ1 (siteDomain site)).urls B).2,
              ts1⟩)
            = alSet (urlsMaps σ1) (siteDomain site)
                (processSite w th lim site (getSiteState σ1 (siteDomain site)).urls B).2 :=
          urlsMaps_setSiteState σ1 _ _
        have hget : alGet (urlsMaps (setSiteState σ1 (siteDomain site)
            ⟨(processSite w th lim site (getSiteState σ1 (siteDomain site)).urls B).2,
              ts1⟩)) (siteDomain site)
            = some (processSite w th lim site (getSiteState σ1 (siteDomain site)).urls B).2 := by
          rw [h1']
          exact alGet_alSet_self _ _ _
        rw [urlsMaps_setSiteState]
        rw [hrun1] at hm
        rw [hm]
        exact alSet_same _ _ _ hget
      · rfl
    · -- run 1 continues into the rest of the sites
      have hrun1 : runSites w th lim ts1 (site :: rest) σ1 B
          = ((runSites w th lim ts1 rest
              (setSiteState σ1 (siteDomain site)
                ⟨(processSite w th lim site (getSiteState σ1 (siteDomain site)).urls B).2,
                  ts1⟩)
              (B - (processSite w th lim site
                (getSiteState σ1 (siteDomain site)).urls B).1.kept.length)).1,
             (processSite w th lim site (getSiteState σ1 (siteDomain site)).urls B).1
               :: (runSites w th lim ts1 rest
                  (setSiteState σ1 (siteDomain site)
                    ⟨(processSite w th lim site
                        (getSiteState σ1 (siteDomain site)).urls B).2, ts1⟩)
                  (B - (processSite w th lim site
                    (getSiteState σ1 (siteDomain site)).urls B).1.kept.length)).2) := by
        rw [runSites_cons, if_neg hbr]
      have huntouched : alGet (runSites w th lim ts1 (site :: rest) σ1 B).1.sites
          (siteDomain site)
          = some ⟨(processSite w th lim site (getSiteState σ1 (siteDomain site)).urls B).2,
              ts1⟩ := by
        rw [hrun1]
        rw [runSites_untouched w th lim ts1 rest _ _ (siteDomain site) hrestne]
        exact alGet_alSet_self σ1.sites (siteDomain site) _
      have hurls2 : (getSiteState σ2 (siteDomain site)).urls
          = (processSite w th lim site (getSiteState σ1 (siteDomain site)).urls B).2 := by
        rw [getSiteState_urls_congr σ2 _ (siteDomain site) hm,
          getSiteState_eq_of_alGet _ _ _ huntouched]
      have hget1 : alGet (urlsMaps (runSites w th lim ts1 (site :: rest) σ1 B).1)
          (siteDomain site)
          = some (processSite w th lim site (getSiteState σ1 (siteDomain site)).urls B).2 := by
        rw [alGet_urlsMaps, huntouched]
        rfl
      have hm' : urlsMaps (setSiteState σ2 (siteDomain site)
          ⟨(processSite w th lim site (getSiteState σ1 (siteDomain site)).urls B).2, ts2⟩)
          = urlsMaps (runSites w th lim ts1 (site :: rest) σ1 B).1 := by
        rw [urlsMaps_setSiteState, hm]
        exact alSet_same _ _ _ hget1
      have hihp := ih (setSiteState σ1 (siteDomain site)
          ⟨(processSite w th lim site (getSiteState σ1 (siteDomain site)).urls B).2, ts1⟩)
        (setSiteState σ2 (siteDomain site)
          ⟨(processSite w th lim site (getSiteState σ1 (siteDomain site)).urls B).2, ts2⟩)
        (B - (processSite w th lim site
          (getSiteState σ1 (siteDomain site)).urls B).1.kept.length)
        hndr (by rw [hm']; rw [hrun1])
      have hrun2 : runSites w th lim ts2 (site :: rest) σ2 B
          = ((runSites w th lim ts2 rest
              (setSiteState σ2 (siteDomain site)
                ⟨(processSite w th lim site (getSiteState σ1 (siteDomain site)).urls B).2,
                  ts2⟩)
              (B - (processSite w th lim site
                (getSiteState σ1 (siteDomain site)).urls B).1.kept.length)).1,
             maskResult
               (processSite w th lim site (getSiteState σ1 (siteDomain site)).urls B).1
               :: (runSites w th lim ts2 rest
                  (setSiteState σ2 (siteDomain site)
                    ⟨(processSite w th lim site
                        (getSiteState σ1 (siteDomain site)).urls B).2, ts2⟩)
                  (B - (processSite w th lim site
                    (getSiteState σ1 (siteDomain site)).urls B).1.kept.length)).2) := by
        rw [runSites_cons, hurls2, processSite_stable]
        rw [if_neg (by simpa using hbr)]
        rfl
      rw [hrun1, hrun2]
      exact ⟨hihp.1, by simp only [List.map_cons]; rw [hihp.2]⟩

theorem collectLocs_card_le (limit : Int) (ls : List String) (c : Finset String)
    (hc : (c.card : Int) < limit) :
    ((collectLocs limit ls c).card : Int) ≤ limit := by
  induction ls generalizing c with
  | nil => exact le_of_lt hc
  | cons l ls ih =>
    rw [collectLocs]
    have hins : ((insert l c).card : Int) ≤ (c.card : Int) + 1 := by
      exact_mod_cast Finset.card_insert_le l c
    by_cases hstop : limit ≤ ((insert l c).card : Int)
    · rw [if_pos hstop]
      omega
    · rw [if_neg hstop]
      exact ih _ (by omega)

/-- The collected set never exceeds the per-site cap. -/
theorem sitemapLoop_card_le (world : AList SitemapDoc) (limit : Int)
    (stack : List String) (seen collected : Finset String) (fetched : List String)
    (hc : (collected.card : Int) ≤ limit) :
    (((sitemapLoop world limit stack seen collected fetched).1.card : Int)) ≤ limit := by
  induction stack, seen, collected, fetched using sitemapLoop.induct world limit with
  | case1 seen collected fetched => simpa [sitemapLoop] using hc
  | case2 cur rest seen collected fetched hcard hseen ih =>
    rw [sitemapLoop]
    simp only [if_pos hcard, dif_pos hseen]
    exact ih hc
  | case3 cur rest seen collected fetched hcard hseen hdoc ih =>
    rw [sitemapLoop]
    simp only [if_pos hcard, dif_neg hseen]
    split
    next heq => exact ih hc
    next doc' heq =>
      rw [hdoc] at heq
      exact Option.noConfusion heq
  | case4 cur rest seen collected fetched hcard hseen doc hdoc ih =>
    rw [sitemapLoop]
    simp only [if_pos hcard, dif_neg hseen]
    split
    next heq =>
      rw [hdoc] at heq
      exact Option.noConfusion heq
    next doc' heq =>
      rw [hdoc] at heq
      injection heq with he
      subst he
      exact ih (collectLocs_card_le limit doc.urls collected hcard)
  | case5 cur rest seen collected fetched hcard =>
    rw [sitemapLoop]
    simp only [if_neg hcard]
    exact hc

/-- Each sitemap URL is fetched at most once: the ordered fetch log has no
duplicates (every fetched URL is added to the visited set first). -/
theorem sitemapLoop_fetched_nodup (world : AList SitemapDoc) (limit : Int)
    (stack : List String) (seen collected : Finset String) (fetched : List String)
    (hnd : fetched.Nodup) (hsub : ∀ u ∈ fetched, u ∈ seen) :
    ((sitemapLoop world limit stack seen collected fetched).2).Nodup := by
  induction stack, seen, collected, fetched using sitemapLoop.induct world limit with
  | case1 seen collected fetched => simpa [sitemapLoop] using hnd
  | case2 cur rest seen collected fetched hcard hseen ih =>
    rw [sitemapLoop]
    simp only [if_pos hcard, dif_pos hseen]
    exact ih hnd hsub
  | case3 cur rest seen collected fetched hcard hseen hdoc ih =>
    rw [sitemapLoop]
    simp only [if_pos hcard, dif_neg hseen]
    split
    next heq =>
      refine ih ?_ ?_
      · simp only [List.nodup_append, List.nodup_cons, List.nodup_nil]
        refine ⟨hnd, ⟨by simp, by simp⟩, ?_⟩
        intro a ha hb
        simp only [List.mem_singleton] at hb
        subst hb
        exact hseen (hsub a ha)
      · intro u hu
        rw [List.mem_append, List.mem_singleton] at hu
        cases hu with
        | inl hmem => exact Finset.mem_insert_of_mem (hsub u hmem)
        | inr he => exact he ▸ Finset.mem_insert_self cur seen
    next doc' heq =>
      rw [hdoc] at heq
      exact Option.noConfusion heq
  | case4 cur rest seen collected fetched hcard hseen doc hdoc ih =>
    rw [sitemapLoop]
    simp only [if_pos hcard, dif_neg hseen]
    split
    next heq =>
      rw [hdoc] at heq
      exact Option.noConfusion heq
    next doc' heq =>
      rw [hdoc] at heq
      injection heq with he
      subst he
      refine ih ?_ ?_
      · simp only [List.nodup_append, List.nodup_cons, List.nodup_nil]
        refine ⟨hnd, ⟨by simp, by simp⟩, ?_⟩
        intro a ha hb
        simp only [List.mem_singleton] at hb
        subst hb
        exact hseen (hsub a ha)
      · intro u hu
        rw [List.mem_append, List.mem_singleton] at hu
        cases hu with
        | inl hmem => exact Finset.mem_insert_of_mem (hsub u hmem)
        | inr he => exact he ▸ Finset.mem_insert_self cur seen
  | case5 cur rest seen collected fetched hcard =>
    rw [sitemapLoop]
    simp only [if_neg hcard]
    exact hnd

theorem fetchAux_spec (world : Nat → Except String String) :
    ∀ (remaining attempt : Nat),
      1 ≤ (fetchAux world attempt remaining).1
        ∧ (fetchAux world attempt remaining).1 ≤ remaining + 1
        ∧ (fetchAux world attempt remaining).2.1
            = (List.range ((fetchAux world attempt remaining).1 - 1)).map
                (fun i => backoffDelay (attempt + i))
        ∧ ((∀ i, i ≤ remaining → ∃ e, world (attempt + i) = Except.error e) →
            (fetchAux world attempt remaining).1 = remaining + 1
              ∧ (fetchAux world attempt remaining).2.2 = world (attempt + remaining)) := by
  intro remaining
  induction remaining with
  | zero =>
    intro attempt
    have hfx : fetchAux world attempt 0 = (1, [], world attempt) := by
      rw [fetchAux]
      cases world attempt <;> rfl
    rw [hfx]
    exact ⟨le_refl 1, le_refl 1, by simp, fun _ => ⟨rfl, by rw [Nat.add_zero]⟩⟩
  | succ n ih =>
    intro attempt
    have hfx : fetchAux world attempt (n + 1)
        = match world attempt with
          | .ok r => (1, [], .ok r)
          | .error _ =>
            ((fetchAux world (attempt + 1) n).1 + 1,
             backoffDelay attempt :: (fetchAux world (attempt + 1) n).2.1,
             (fetchAux world (attempt + 1) n).2.2) := by
      rw [fetchAux]
    cases hw : world attempt with
    | ok r =>
      rw [hfx, hw]
      refine ⟨le_refl 1, ?_, ?_, ?_⟩
      · show (1 : Nat) ≤ n + 1 + 1
        omega
      · show ([] : List ℚ) = (List.range (1 - 1)).map (fun i => backoffDelay (attempt + i))
        simp
      · intro hall
        obtain ⟨e, he⟩ := hall 0 (Nat.zero_le _)
        rw [Nat.add_zero, hw] at he
        exact Except.noConfusion he
    | error e =>
      obtain ⟨h1, h2, h3, h4⟩ := ih (attempt + 1)
      rw [hfx, hw]
      refine ⟨?_, ?_, ?_, ?_⟩
      · show 1 ≤ (fetchAux world (attempt + 1) n).1 + 1
        omega
      · show (fetchAux world (attempt + 1) n).1 + 1 ≤ n + 1 + 1
        omega
      · show backoffDelay attempt :: (fetchAux world (attempt + 1) n).2.1
          = (List.range ((fetchAux world (attempt + 1) n).1 + 1 - 1)).map
              (fun i => backoffDelay (attempt + i))
        rw [h3]
        have hm : (fetchAux world (attempt + 1) n).1 + 1 - 1
            = ((fetchAux world (attempt + 1) n).1 - 1) + 1 := by omega
        rw [hm, List.range_succ_eq_map, List.map_cons, Nat.add_zero, List.map_map]
        congr 1
        apply List.map_congr_left
        intro i _
        show backoffDelay (attempt + 1 + i) = backoffDelay (attempt + Nat.succ i)
        congr 1
        omega
      · intro hall
        have hall2 : ∀ i, i ≤ n → ∃ e2, world (attempt + 1 + i) = Except.error e2 := by
          intro i hi
          obtain ⟨e2, he2⟩ := hall (i + 1) (by omega)
          exact ⟨e2, by rw [show attempt + 1 + i = attempt + (i + 1) by omega]; exact he2⟩
        obtain ⟨hcnt, hres⟩ := h4 hall2
        constructor
        · show (fetchAux world (attempt + 1) n).1 + 1 = n + 1 + 1
          omega
        · show (fetchAux world (attempt + 1) n).2.2 = world (attempt + (n + 1))
          rw [hres]
          congr 1
          omega

/-- The remaining budgets recorded across the site loop: the first
processed site sees the full entry budget, and each later site sees the
previous site's budget decremented by the number of URLs it kept. -/
theorem runSites_budget_chain (w : World) (th : Int) (lim : Limits) (ts : Int)
    (sites : List Site) :
    ∀ (st : RunState) (remaining : Int),
      (∀ r0, (runSites w th lim ts sites st remaining).2.head? = some r0 →
          r0.budgetBefore = remaining)
        ∧ List.Chain' (fun a b => b.budgetBefore = a.budgetBefore - (a.kept.length : Int))
            (runSites w th lim ts sites st remaining).2 := by
  induction sites with
  | nil =>
    intro st remaining
    constructor
    · intro r0 h
      simp [runSites] at h
    · simp [runSites]
  | cons site rest ih =>
    intro st remaining
    rw [runSites_cons]
    split
    next hbr =>
      constructor
      · intro r0 h
        rw [List.head?_cons] at h
        injection h with he
        rw [← he]
        rfl
      · exact List.chain'_singleton _
    next hbr =>
      obtain ⟨hhead, hchain⟩ := ih (setSiteState st (siteDomain site)
          ⟨(processSite w th lim site (getSiteState st (siteDomain site)).urls
            remaining).2, ts⟩)
        (remaining - (processSite w th lim site
          (getSiteState st (siteDomain site)).urls remaining).1.kept.length)
      constructor
      · intro r0 h
        rw [List.head?_cons] at h
        injection h with he
        rw [← he]
        rfl
      · rw [List.chain'_cons']
        refine ⟨?_, hchain⟩
        intro b hb
        have hb' := hhead b hb
        rw [hb']
        rfl

/-- Exhaustion forces the break: whenever a processed site leaves the
running budget at `<= 0` (its entry budget minus the URLs it kept), the
site loop breaks right there, so that site is the last one processed and
every remaining site is skipped for the rest of the run. -/
theorem runSites_stops_on_exhaustion (w : World) (th : Int) (lim : Limits) (ts : Int)
    (sites : List Site) :
    ∀ (st : RunState) (remaining : Int) (i : Nat) (r : SiteResult),
      (runSites w th lim ts sites st remaining).2.get? i = some r →
      r.budgetBefore - (r.kept.length : Int) ≤ 0 →
      (runSites w th lim ts sites st remaining).2.length = i + 1 := by
  induction sites with
  | nil =>
    intro st remaining i r hget hex
    simp [runSites] at hget
  | cons site rest ih =>
    intro st remaining i r hget hex
    by_cases hbr : remaining - ((processSite w th lim site
        (getSiteState st (siteDomain site)).urls remaining).1.kept.length : Int) ≤ 0
    · rw [runSites_cons, if_pos hbr] at hget ⊢
      cases i with
      | zero => rfl
      | succ j =>
        rw [List.get?_cons_succ] at hget
        simp at hget
    · rw [runSites_cons, if_neg hbr] at hget ⊢
      cases i with
      | zero =>
        rw [List.get?_cons_zero] at hget
        injection hget with he
        subst he
        exfalso
        apply hbr
        exact hex
      | succ j =>
        rw [List.get?_cons_succ] at hget
        have hres := ih _ _ j r hget hex
        simp only [List.length_cons]
        omega

/-- C1 witness at a concrete input: threshold 3, previous length 7, new
length 10 (delta exactly equal to the threshold → Changed). -/
theorem changed_iff_threshold_boundary_witness :
    ("https://e.com/a" ∈ (processSite wA 3 limA siteA priorA 9).1.changedUrls
        ↔ (3 : Int) ≤ |(10 : Int) - (7 : Int)|)
      ∧ "https://e.com/a" ∉ (processSite wA 3 limA siteA priorA 9).1.newUrls
      ∧ alGet (processSite wA 3 limA siteA priorA 9).2 "https://e.com/a"
          = some ⟨"h2", 10⟩ :=
  changed_iff_threshold_boundary wA 3 limA siteA priorA 9 "https://e.com/a" "h2" 10
    ⟨"h1", 7⟩ (by decide) (by decide) (by decide) (by decide)

/-- C2 (code-bug exhibit).  With no include prefixes configured and an
exclude prefix `/x`, the URL `https://e.com/x/a` is out of scope
(`should_include` rejects it), yet the Gone loop still classifies it Gone,
because the scope guard at line 355 fires only when `include_paths` is
non-empty (`if include_paths and not should_include(...)`), contradicting
the code's own comment and the spec. -/
theorem gone_ignores_exclude_only_scope :
    should_include "https://e.com/x/a" [] ["/x"] = false
      ∧ "https://e.com/x/a" ∈ (processSite wNone 3 limA siteX priorX 9).1.goneUrls := by
  decide

/-- C3 (budget enforcement).  With nonnegative configured limits: the
total number of URLs kept across all processed sites never exceeds
`max_total_urls`; no site keeps more than `max_urls_per_site`; each site's
kept set has size exactly `min(available, max_urls_per_site, remaining
budget)`; the results cover a prefix of the configured site list; the
budget seen by the first site is the full `max_total_urls` and each later
site sees the previous site's budget decremented by the number of URLs it
kept; once the global budget is exhausted — a processed site leaves its
entry budget minus its kept count at `<= 0` — that site is the last one
processed, so (with the prefix fact) all remaining sites are skipped for
the rest of the run; and conversely, if the run stops before the end of
the site list then the remaining budget was exhausted at that point. -/
theorem budget_enforced (w : World) (th : Int) (lim : Limits) (ts : Int)
    (sites : List Site) (st : RunState) (hp : 0 ≤ lim.max_urls_per_site)
    (ht : 0 ≤ lim.max_total_urls) :
    (((runSites w th lim ts sites st lim.max_total_urls).2.map
        (fun r => (r.kept.length : Int))).sum ≤ lim.max_total_urls)
      ∧ (∀ r ∈ (runSites w th lim ts sites st lim.max_total_urls).2,
          (r.kept.length : Int) ≤ lim.max_urls_per_site)
      ∧ (∀ r ∈ (runSites w th lim ts sites st lim.max_total_urls).2,
          (r.kept.length : Int)
            = min (r.filtered.length : Int) (min lim.max_urls_per_site r.budgetBefore))
      ∧ ((runSites w th lim ts sites st lim.max_total_urls).2.map (fun r => r.siteUrl)
          = (sites.take (runSites w th lim ts sites st lim.max_total_urls).2.length).map
              (fun s => s.url))
      ∧ (∀ r0, (runSites w th lim ts sites st lim.max_total_urls).2.head? = some r0 →
          r0.budgetBefore = lim.max_total_urls)
      ∧ List.Chain' (fun a b => b.budgetBefore = a.budgetBefore - (a.kept.length : Int))
          (runSites w th lim ts sites st lim.max_total_urls).2
      ∧ (∀ (i : Nat) (r : SiteResult),
          (runSites w th lim ts sites st lim.max_total_urls).2.get? i = some r →
          r.budgetBefore - (r.kept.length : Int) ≤ 0 →
          (runSites w th lim ts sites st lim.max_total_urls).2.length = i + 1)
      ∧ ((runSites w th lim ts sites st lim.max_total_urls).2.length < sites.length →
          lim.max_total_urls - (((runSites w th lim ts sites st lim.max_total_urls).2.map
            (fun r => (r.kept.length : Int))).sum) ≤ 0) := by
  obtain ⟨hsum, hall, hpre, hskip⟩ :=
    runSites_budget w th lim ts hp sites st lim.max_total_urls ht
  obtain ⟨hhead, hchain⟩ := runSites_budget_chain w th lim ts sites st lim.max_total_urls
  exact ⟨hsum, fun r hr => (hall r hr).1, fun r hr => (hall r hr).2.1, hpre, hhead,
    hchain, fun i r hget hex =>
      runSites_stops_on_exhaustion w th lim ts sites st lim.max_total_urls i r hget hex,
    hskip⟩

/-- C3 witness: per-site cap 2, total budget 3, three configured sites —
the first site keeps 2 of its 3 URLs, the second keeps only the remaining
1, the budget is then exhausted and the third site is skipped: only two
sites are processed. -/
theorem budget_enforced_witness :
    (((runSites wTwo 3 limB 100 [siteA, siteF, siteA] ⟨[]⟩ limB.max_total_urls).2.map
        (fun r => (r.kept.length : Int))).sum ≤ limB.max_total_urls)
      ∧ (runSites wTwo 3 limB 100 [siteA, siteF, siteA] ⟨[]⟩
          limB.max_total_urls).2.length = 1 + 1 :=
  ⟨(budget_enforced wTwo 3 limB 100 [siteA, siteF, siteA] ⟨[]⟩
      (by decide) (by decide)).1,
   (budget_enforced wTwo 3 limB 100 [siteA, siteF, siteA] ⟨[]⟩
      (by decide) (by decide)).2.2.2.2.2.2.1 1
      ⟨"https://f.com", "f.com", ["https://f.com/1", "https://f.com/2"], 1,
        ["https://f.com/1"], [], [], []⟩ (by decide) (by decide)⟩

/-- C4 (records always overwritten, never deleted).  After any run: every
domain and URL record present in the prior state is still present (no run
deletes a key), and every URL kept and successfully fingerprinted for a
processed site is recorded under that site's domain with exactly the
current `(digest, length)`. -/
theorem state_never_deletes (w : World) (th : Int) (lim : Limits) (ts : Int)
    (sites : List Site) (st : RunState) (remaining : Int) :
    (∀ d su u r, alGet st.sites d = some su → alGet su.urls u = some r →
      ∃ su' r', alGet (runSites w th lim ts sites st remaining).1.sites d = some su'
        ∧ alGet su'.urls u = some r')
      ∧ (∀ res ∈ (runSites w th lim ts sites st remaining).2, ∀ u h L,
          u ∈ res.kept → w.fp u = some (h, L) →
          ∃ su', alGet (runSites w th lim ts sites st remaining).1.sites res.domain
              = some su'
            ∧ alGet su'.urls u = some ⟨h, L⟩) :=
  ⟨fun d su u r h1 h2 =>
      runSites_preserves_entry w th lim ts sites st remaining d su u r h1 h2,
   fun res hres u h L hu hfp =>
      runSites_fp_written w th lim ts sites st remaining res hres u h L hu hfp⟩

/-- C4 witness: the stale `/old` record survives the run and the freshly
fingerprinted `/a` ends up stored with its current digest and length. -/
theorem state_never_deletes_witness :
    (∃ su' r', alGet (runSites wA 3 limA 100 [siteA] stOld 9).1.sites "e.com" = some su'
        ∧ alGet su'.urls "https://e.com/old" = some r')
      ∧ (∃ su', alGet (runSites wA 3 limA 100 [siteA] stOld 9).1.sites "e.com" = some su'
          ∧ alGet su'.urls "https://e.com/a" = some ⟨"h2", 10⟩) :=
  ⟨(state_never_deletes wA 3 limA 100 [siteA] stOld 9).1 "e.com"
      ⟨[("https://e.com/old", ⟨"h0", 1⟩)], 0⟩ "https://e.com/old" ⟨"h0", 1⟩
      (by decide) (by decide),
   (state_never_deletes wA 3 limA 100 [siteA] stOld 9).2
      ⟨"https://e.com", "e.com", ["https://e.com/a"], 9, ["https://e.com/a"],
        ["https://e.com/a"], [], ["https://e.com/old"]⟩ (by decide)
      "https://e.com/a" "h2" 10 (by decide) (by decide)⟩

/-- C5 counterexample: a URL present in prior state but absent from
discovery is classified Gone by the first run AND again by the second run
(records are never deleted), so the second run's Gone set is not empty:
the claim as stated is false. -/
theorem second_run_gone_nonempty_cex :
    ((runSites wNone 3 limA 101 [siteA]
        (runSites wNone 3 limA 100 [siteA] stGone limA.max_total_urls).1
        limA.max_total_urls).2.map (fun r => r.goneUrls))
      = [["https://e.com/gone"]] := by
  decide

/-- C5 (amended).  For sites with pairwise-distinct domain keys, running
the engine a second time with unchanged remote content yields empty New
and Changed lists for every site, reproduces exactly the first run's Gone
lists (so the second run's Gone sets are empty iff the first run's were),
and stores URL maps identical to the first run's (same digests and
lengths). -/
theorem second_run_quiescent (w : World) (th : Int) (lim : Limits) (ts1 ts2 : Int)
    (sites : List Site) (st0 : RunState) (hnd : (sites.map siteDomain).Nodup) :
    (∀ r ∈ (runSites w th lim ts2 sites
        (runSites w th lim ts1 sites st0 lim.max_total_urls).1 lim.max_total_urls).2,
      r.newUrls = [] ∧ r.changedUrls = [])
      ∧ (runSites w th lim ts2 sites
          (runSites w th lim ts1 sites st0 lim.max_total_urls).1
          lim.max_total_urls).2.map (fun r => r.goneUrls)
          = (runSites w th lim ts1 sites st0 lim.max_total_urls).2.map
              (fun r => r.goneUrls)
      ∧ urlsMaps (runSites w th lim ts2 sites
          (runSites w th lim ts1 sites st0 lim.max_total_urls).1 lim.max_total_urls).1
          = urlsMaps (runSites w th lim ts1 sites st0 lim.max_total_urls).1 := by
  obtain ⟨hst, hres⟩ :=
    runSites_second w th lim ts1 ts2 sites st0 _ lim.max_total_urls hnd rfl
  refine ⟨?_, ?_, hst⟩
  · intro r hr
    rw [hres] at hr
    obtain ⟨r0, _, he⟩ := List.mem_map.mp hr
    rw [← he]
    exact ⟨rfl, rfl⟩
  · rw [hres, List.map_map]
    rfl

/-- C5 witness: second run over the one-site world with no fetchable
content reproduces the first run's Gone lists. -/
theorem second_run_quiescent_witness :
    (runSites wNone 3 limA 101 [siteA]
        (runSites wNone 3 limA 100 [siteA] stGone limA.max_total_urls).1
        limA.max_total_urls).2.map (fun r => r.goneUrls)
      = (runSites wNone 3 limA 100 [siteA] stGone limA.max_total_urls).2.map
          (fun r => r.goneUrls) :=
  (second_run_quiescent wNone 3 limA 100 101 [siteA] stGone (by decide)).2.1

/-- C6 (sitemap collection is safe).  `parse_sitemap_collect` is a total
function (it terminates on every input, including a sitemap index that
references itself directly or through a cycle — witnessed below); its
fetch log contains each sitemap URL at most once (the visited-set
guarantees `Nodup`); the collected page URLs form a `Finset`, hence
contain no duplicates by construction; and for a nonnegative cap the
collected set holds at most `max_urls_per_site` URLs. -/
theorem sitemap_collect_bounded (world : AList SitemapDoc) (limit : Int) (url : String)
    (hl : 0 ≤ limit) :
    (((parse_sitemap_collect world limit url).1.card : Int) ≤ limit)
      ∧ (parse_sitemap_collect world limit url).2.Nodup := by
  constructor
  · exact sitemapLoop_card_le world limit [url] ∅ ∅ [] (by simpa using hl)
  · exact sitemapLoop_fetched_nodup world limit [url] ∅ ∅ [] (by simp) (by simp)

/-- C6 witness: a sitemap index that references itself; collection still
terminates (the application below is to a by-construction total function),
within the cap and fetching the document only once. -/
theorem sitemap_collect_bounded_witness :
    (((parse_sitemap_collect sitemapWorld 5 "https://e.com/s.xml").1.card : Int) ≤ 5)
      ∧ (parse_sitemap_collect sitemapWorld 5 "https://e.com/s.xml").2.Nodup :=
  sitemap_collect_bounded sitemapWorld 5 "https://e.com/s.xml" (by decide)

/-- C7 (cold start).  When no prior state file existed (or the loaded
state has no sites), `main` sends exactly the one-line initialization
notice and nothing else, while the computed classifications are still
written to state: the saved state equals the site loop's output, in which
every successfully fingerprinted URL is recorded. -/
theorem cold_start_init_notice_only (w : World) (sitesCfg : List Site) (th : Int)
    (lim : Limits) (ex : Bool) (st0 : RunState) (ts : Int)
    (hcold : ex = false ∨ st0.sites = []) :
    (runMain w sitesCfg th lim ex st0 ts).2 = [SlackMsg.initNotice sitesCfg.length]
      ∧ (runMain w sitesCfg th lim ex st0 ts).1
          = (runSites w th lim ts sitesCfg st0 lim.max_total_urls).1
      ∧ (∀ res ∈ (runSites w th lim ts sitesCfg st0 lim.max_total_urls).2, ∀ u h L,
          u ∈ res.kept → w.fp u = some (h, L) →
          ∃ su', alGet (runMain w sitesCfg th lim ex st0 ts).1.sites res.domain = some su'
            ∧ alGet su'.urls u = some ⟨h, L⟩) := by
  have hcb : (!ex || st0.sites.isEmpty) = true := by
    cases hcold with
    | inl he => rw [he]; rfl
    | inr he => rw [he]; simp
  refine ⟨?_, rfl, ?_⟩
  · simp [runMain, hcb]
  · intro res hres u h L hu hfp
    exact runSites_fp_written w th lim ts sitesCfg st0 lim.max_total_urls res hres
      u h L hu hfp

/-- C7 witness: a cold start (no state file) over one site: the only
outbound message is the initialization notice. -/
theorem cold_start_init_notice_only_witness :
    (runMain wNone [siteA] 3 limA false stGone 100).2 = [SlackMsg.initNotice 1] :=
  (cold_start_init_notice_only wNone [siteA] 3 limA false stGone 100 (Or.inl rfl)).1

/-- C8 (retry/backoff contract of `fetch`).  At most `retries + 1` GET
attempts are made; the backoff sleeps performed are exactly
`min(2 ** attempt * 0.5, 4.0)` seconds for attempts `0, 1, ...` in order
— one between each pair of consecutive failed attempts and none after the
final attempt, so there are `attempts − 1` of them; base `0.5` and
ceiling `4.0` are fixed constants taking no configuration input; and when
every attempt fails, all `retries + 1` attempts are used and the last
attempt's error is raised to the caller. -/
theorem fetch_retry_backoff (world : Nat → Except String String) (retries : Nat) :
    (fetch world retries).1 ≤ retries + 1
      ∧ (fetch world retries).2.1
          = (List.range ((fetch world retries).1 - 1)).map backoffDelay
      ∧ (fetch world retries).2.1.length = (fetch world retries).1 - 1
      ∧ (∀ a, backoffDelay a = min ((2 : ℚ) ^ a * (1 / 2)) 4)
      ∧ ((∀ i, i ≤ retries → ∃ e, world i = Except.error e) →
          (fetch world retries).1 = retries + 1
            ∧ (fetch world retries).2.2 = world retries) := by
  obtain ⟨h1, h2, h3, h4⟩ := fetchAux_spec world retries 0
  refine ⟨h2, ?_, ?_, fun a => rfl, ?_⟩
  · show (fetchAux world 0 retries).2.1
      = (List.range ((fetchAux world 0 retries).1 - 1)).map backoffDelay
    rw [h3]
    apply List.map_congr_left
    intro i _
    rw [Nat.zero_add]
  · show (fetchAux world 0 retries).2.1.length = (fetchAux world 0 retries).1 - 1
    rw [h3, List.length_map, List.length_range]
  · intro hall
    obtain ⟨hc, hr⟩ := h4 (fun i hi => by
      obtain ⟨e, he⟩ := hall i hi
      exact ⟨e, by rw [Nat.zero_add]; exact he⟩)
    refine ⟨hc, ?_⟩
    show (fetchAux world 0 retries).2.2 = world retries
    rw [hr, Nat.zero_add]

/-- C8 witness: with every attempt failing and `retries = 2`, exactly 3
attempts are made and the last error is raised. -/
theorem fetch_retry_backoff_witness :
    (fetch (fun _ => Except.error "boom") 2).1 = 2 + 1
      ∧ (fetch (fun _ => Except.error "boom") 2).2.2 = Except.error "boom" :=
  (fetch_retry_backoff (fun _ => Except.error "boom") 2).2.2.2.2
    (fun i _ => ⟨"boom", rfl⟩)

/-- C9 (failed fingerprints are skipped): stated over one processed site;
see `fetch_failure_skips`. -/
theorem fetch_failure_skips_witness :
    "https://e.com/a" ∉ (processSite wFail 3 limA siteA priorA 9).1.newUrls
      ∧ "https://e.com/a" ∉ (processSite wFail 3 limA siteA priorA 9).1.changedUrls
      ∧ "https://e.com/a" ∉ (processSite wFail 3 limA siteA priorA 9).1.goneUrls
      ∧ alGet (processSite wFail 3 limA siteA priorA 9).2 "https://e.com/a"
          = alGet priorA "https://e.com/a" :=
  fetch_failure_skips wFail 3 limA siteA priorA 9 "https://e.com/a" (by decide) rfl

/-- C10 counterexample: with remaining budget −1 (smaller than the
per-site cap), `take = min(5, -1) = -1` and Python's `list(urls)[:-1]`
keeps all but the last element, so `clamp_urls` returns 2 URLs: more than
the remaining budget, and not of size `min(3, 5, -1)`. -/
theorem clamp_negative_budget_cex :
    clamp_urls ["a", "b", "c"] limA (-1) = ["a", "b"]
      ∧ ¬ (((clamp_urls ["a", "b", "c"] limA (-1)).length : Int)
            = min ((["a", "b", "c"] : List String).length : Int)
                (min limA.max_urls_per_site (-1)))
      ∧ ¬ (((clamp_urls ["a", "b", "c"] limA (-1)).length : Int) ≤ -1) := by
  decide

/-- C10 (amended).  For a duplicate-free input collection and nonnegative
per-site limit and remaining budget, `clamp_urls` returns a subset of the
input whose size is exactly
`min(size of input, max_urls_per_site, remaining budget)`. -/
theorem clamp_min_size (urls : List String) (lim : Limits) (b : Int)
    (hnd : urls.Nodup) (hp : 0 ≤ lim.max_urls_per_site) (hb : 0 ≤ b) :
    (∀ u ∈ clamp_urls urls lim b, u ∈ urls)
      ∧ ((clamp_urls urls lim b).length : Int)
          = min (urls.length : Int) (min lim.max_urls_per_site b) :=
  ⟨fun u hu => clamp_urls_subset urls lim b u hu, clamp_urls_length_eq urls lim b hnd hp hb⟩

/-- C10 witness: budget 2 smaller than the cap 5 over a 3-element input:
exactly 2 URLs survive. -/
theorem clamp_min_size_witness :
    ((clamp_urls ["a", "b", "c"] limA 2).length : Int)
      = min (((["a", "b", "c"] : List String).length : Int))
          (min limA.max_urls_per_site 2) :=
  (clamp_min_size ["a", "b", "c"] limA 2 (by decide) (by decide) (by decide)).2

end Monitor
